import Mathlib

/-!
Verification of the rs-bin_patcher core (src/main.rs, src/patch.rs).

The Rust code is shallowly embedded: bytes are `Nat`, buffers are `List Nat`,
fallible operations (Rust index / slice panics and usize-subtraction
underflow) are `Option`-valued, and loops are modelled as fuel-based
recursions whose fuel-zero result coincides with the loop-exit result (or is
`none` when the loop could not have exited yet); every top-level wrapper
supplies provably sufficient fuel.
-/

namespace BinPatcher

/-- src/patch.rs `PatchSection` (the `end` field keeps its source name via
guillemets, since `end` is a Lean keyword). -/
structure PatchSection where
  id : Nat
  start : Nat
  «end» : Nat
  search : List Nat
  data : List Nat
deriving DecidableEq, Repr

/-- src/patch.rs `Patch`. -/
structure Patch where
  sections : List PatchSection
deriving DecidableEq, Repr

/-- Inclusive slice `buf[a..=b]`: `none` models the Rust slice panic
(`b` out of bounds or `a > b + 1`). -/
def sliceIncl (buf : List Nat) (a b : Nat) : Option (List Nat) :=
  if b < buf.length ∧ a ≤ b + 1 then some ((buf.drop a).take (b + 1 - a)) else none

/-- Contiguous sub-buffer `buf[a..=b]` as a total function (used only in
specification statements and invariants, not in the embedded code). -/
def listSlice (buf : List Nat) (a b : Nat) : List Nat :=
  (buf.drop a).take (b + 1 - a)

/-- Apply `f` to the last element of a list (the code always addresses
`patch.sections[section_index - 1]`, and `section_index` equals the number of
pushed sections, so this is exactly the last pushed section). -/
def modifyLast (f : PatchSection → PatchSection) : List PatchSection → List PatchSection
  | [] => []
  | [s] => [f s]
  | s :: t :: rest => s :: modifyLast f (t :: rest)

/-- Scan state of the differencing loop in `build_patch`
(src/main.rs lines 109-160): `sections` plays the role of
`patch.sections` (with `section_index = sections.length`). -/
structure ScanState where
  sections : List PatchSection
  patching : Bool
  fail_count : Nat
  fail_continue : Bool
  extra_search : List Nat
  extra_data : List Nat
deriving DecidableEq, Repr

/-- One iteration of the differencing loop of `build_patch`
(src/main.rs lines 119-160) at index `i`. -/
def scanStep (src tr : List Nat) (follow : Nat) (oc : Bool) (st : ScanState) (i : Nat) :
    ScanState :=
  let x := src.getD i 0
  let y := tr.getD i 0
  let valid : Bool := (decide (0x30 ≤ x) && decide (x ≤ 0x71)) || !oc
  if x ≠ y ∧ valid = true then
    let st1 :=
      if st.patching = false ∧ st.fail_continue = false then
        { st with
          sections := st.sections ++
            [{ id := st.sections.length + 1, start := i, «end» := 0, search := [], data := [] }],
          fail_count := 0, patching := true }
      else st
    let st2 :=
      if st1.fail_continue = true then
        { st1 with
          sections := modifyLast
            (fun s => { s with search := s.search ++ st1.extra_search,
                               data := s.data ++ st1.extra_data }) st1.sections,
          extra_search := [], extra_data := [], patching := true }
      else st1
    { st2 with
      sections := modifyLast
        (fun s => { s with search := s.search ++ [x], data := s.data ++ [y], «end» := i })
        st2.sections,
      fail_continue := false }
  else
    if st.fail_count < follow ∧ 0 < st.sections.length ∧ valid = true then
      { st with extra_search := st.extra_search ++ [x], extra_data := st.extra_data ++ [y],
                fail_continue := true, fail_count := st.fail_count + 1, patching := false }
    else
      { st with extra_search := [], extra_data := [], fail_continue := false,
                fail_count := st.fail_count + 1, patching := false }

/-- Initial scan state of `build_patch`. -/
def scanInit : ScanState := ⟨[], false, 0, false, [], []⟩

/-- Scan state after processing the first `n` byte positions. -/
def scanN (src tr : List Nat) (follow : Nat) (oc : Bool) (n : Nat) : ScanState :=
  (List.range n).foldl (scanStep src tr follow oc) scanInit

/-- The raw patch produced by the differencing loop of `build_patch`
(src/main.rs lines 119-160): the whole input is scanned. -/
def buildPatchScan (src tr : List Nat) (follow : Nat) (oc : Bool) : Patch :=
  { sections := (scanN src tr follow oc src.length).sections }

/-- The section-validation loop shared by `grow_section` (src/main.rs lines
230-235) and the detect pass of `apply_patch` (lines 390-395): full-pattern
check at offset `k`, with the in-loop bounds guard `i + j >= len`. -/
def validAtC (buf : List Nat) : List Nat → Nat → Bool
  | [], _ => true
  | p :: ps, k =>
    if k < buf.length then (buf.getD k 0 == p) && validAtC buf ps (k + 1) else false

/-- The section-validation loop of the primary pass of `apply_patch`
(src/main.rs lines 419-424), which has NO bounds guard: reading past the end
of the buffer is an index panic, modelled as `none`. -/
def validAtUB (buf : List Nat) : List Nat → Nat → Option Bool
  | [], _ => some true
  | p :: ps, k =>
    if k < buf.length then
      (if buf.getD k 0 == p then validAtUB buf ps (k + 1) else some false)
    else none

/-- Non-overlapping occurrence counting of the detect pass of `apply_patch`
(src/main.rs lines 383-405): first-byte check, full validation, and a jump of
the full pattern length on success.  The pattern is passed as head `p` and
tail `ps` since the code reads `search[0]`.  Fuel-based; fuel `0` returns the
loop-exit value. -/
def countOccF (buf : List Nat) (p : Nat) (ps : List Nat) : Nat → Nat → Nat
  | 0, _ => 0
  | fuel + 1, i =>
    if i < buf.length then
      if buf.getD i 0 == p && validAtC buf (p :: ps) i then
        1 + countOccF buf p ps fuel (i + (p :: ps).length)
      else countOccF buf p ps fuel (i + 1)
    else 0

/-- Occurrence counting of `grow_section` (src/main.rs lines 220-243): same
scan as the detect pass but with the early `if section_count > 1 break`. -/
def growCountAuxF (buf : List Nat) (p : Nat) (ps : List Nat) : Nat → Nat → Nat → Nat
  | 0, _, c => c
  | fuel + 1, i, c =>
    if i < buf.length then
      if c > 1 then c
      else if buf.getD i 0 == p && validAtC buf (p :: ps) i then
        growCountAuxF buf p ps fuel (i + (p :: ps).length) (c + 1)
      else growCountAuxF buf p ps fuel (i + 1) c
    else c

/-- The occurrence count computed by one round of `grow_section`'s outer loop;
`none` models the `new_section.search[0]` index panic on an empty pattern
(reachable only if the buffer is non-empty, since the scan loop body is
never entered on an empty buffer). -/
def growCount (tf : List Nat) (pat : List Nat) : Option Nat :=
  match pat with
  | [] => if tf.isEmpty then some 0 else none
  | p :: ps => some (growCountAuxF tf p ps (tf.length + 1) 0 0)

/-- `section_append` (src/main.rs lines 305-313): append the next `amount`
bytes after `end` from both buffers.  The slice upper bound is
`min(end + amount, input.len())`, so reaching the buffer end makes the
inclusive slice `input[(end+1)..=len]` panic (`none`). -/
def section_append (s : PatchSection) (input patched : List Nat) (amount : Nat) :
    Option PatchSection :=
  let hi := min (s.«end» + amount) input.length
  match sliceIncl input (s.«end» + 1) hi, sliceIncl patched (s.«end» + 1) hi with
  | some xs, some ys =>
    some { s with search := s.search ++ xs, data := s.data ++ ys, «end» := s.«end» + amount }
  | _, _ => none

/-- `section_preappend` (src/main.rs lines 316-322): prepend the byte before
`start` from both buffers; no-op when `start = 0`; `none` models the index
panic when `start - 1` is out of bounds. -/
def section_preappend (s : PatchSection) (input patched : List Nat) : Option PatchSection :=
  if 0 < s.start then
    if s.start - 1 < input.length ∧ s.start - 1 < patched.length then
      some { s with search := input.getD (s.start - 1) 0 :: s.search,
                    data := patched.getD (s.start - 1) 0 :: s.data,
                    start := s.start - 1 }
    else none
  else some s

/-- The `while after <= max_grow` loop of `grow_section` (src/main.rs lines
219-277) together with the post-loop installation (lines 278-300); returns
the final value of the `section` argument.  `orig` is the original section
(the code's `section`), `ns` the working copy (`new_section`).  `strategy`
only ever takes the values 0, 1, 2, so the code's `strategy == 2` test is
written `2 ≤ strategy`. -/
def growLoopF (orig : PatchSection) (input patched tf : List Nat) (testSome : Bool)
    (maxGrow : Nat) : Nat → PatchSection → Nat → Nat → Bool → Option PatchSection
  | 0, _, _, _, _ => none
  | fuel + 1, ns, after, strategy, pingPong =>
    if after > maxGrow then some orig
    else
      match growCount tf ns.search with
      | none => none
      | some c =>
        if c > 1 then
          match (if strategy = 0 then section_append ns input patched 1
                 else if strategy = 1 then section_preappend ns input patched
                 else if pingPong then section_append ns input patched 1
                 else section_preappend ns input patched) with
          | none => none
          | some ns' =>
            growLoopF orig input patched tf testSome maxGrow fuel ns' (after + 1) strategy
              (if 2 ≤ strategy then !pingPong else pingPong)
        else if c = 1 then (if 0 < after then some ns else some orig)
        else
          if 2 ≤ strategy then
            (if testSome then some { orig with search := [], data := [] } else some orig)
          else growLoopF orig input patched tf testSome maxGrow fuel orig 0 (strategy + 1) pingPong

/-- `grow_section` (src/main.rs lines 203-302): the reference buffer is the
`test` file when given, otherwise the source buffer. -/
def growSection (s : PatchSection) (input patched : List Nat) (testBuf : Option (List Nat))
    (maxGrow : Nat) : Option PatchSection :=
  growLoopF s input patched (testBuf.getD input) testBuf.isSome maxGrow
    (3 * maxGrow + 9) s 0 0 false

/-- Instrumented copy of `growLoopF` that also reports the maximum number of
extension steps performed under any single strategy (the accumulator takes
`max acc (after + 1)` at every extension, and `after` counts the extensions
done under the current strategy). -/
def growStepsF (orig : PatchSection) (input patched tf : List Nat) (testSome : Bool)
    (maxGrow : Nat) : Nat → PatchSection → Nat → Nat → Bool → Nat →
    Option (PatchSection × Nat)
  | 0, _, _, _, _, _ => none
  | fuel + 1, ns, after, strategy, pingPong, acc =>
    if after > maxGrow then some (orig, acc)
    else
      match growCount tf ns.search with
      | none => none
      | some c =>
        if c > 1 then
          match (if strategy = 0 then section_append ns input patched 1
                 else if strategy = 1 then section_preappend ns input patched
                 else if pingPong then section_append ns input patched 1
                 else section_preappend ns input patched) with
          | none => none
          | some ns' =>
            growStepsF orig input patched tf testSome maxGrow fuel ns' (after + 1) strategy
              (if 2 ≤ strategy then !pingPong else pingPong) (max acc (after + 1))
        else if c = 1 then (if 0 < after then some (ns, acc) else some (orig, acc))
        else
          if 2 ≤ strategy then
            (if testSome then some ({ orig with search := [], data := [] }, acc)
             else some (orig, acc))
          else growStepsF orig input patched tf testSome maxGrow fuel orig 0 (strategy + 1)
            pingPong acc

/-- `grow_section` instrumented with the per-strategy extension-step maximum. -/
def growStepsTop (s : PatchSection) (input patched : List Nat) (testBuf : Option (List Nat))
    (maxGrow : Nat) : Option (PatchSection × Nat) :=
  growStepsF s input patched (testBuf.getD input) testBuf.isSome maxGrow
    (3 * maxGrow + 9) s 0 0 false 0

/-- The merging loop of `section_merge` (src/main.rs lines 330-351).  `count`
is always `sections.len() - 1`, so the loop condition is `i < length - 1`.
`none` models the usize-subtraction / slice panics of the splice (both debug
and release builds panic there, the latter via a wrapped slice index). -/
def mergeLoopF : Nat → List PatchSection → Nat → Option (List PatchSection)
  | 0, _, _ => none
  | fuel + 1, l, i =>
    if i < l.length - 1 then
      match l[i]?, l[i + 1]? with
      | some a, some b =>
        if b.start ≤ a.«end» then
          if a.start ≤ a.«end» ∧ a.«end» ≤ b.«end» then
            let st := a.«end» - a.start
            let en := b.«end» - a.«end»
            match sliceIncl b.search st en, sliceIncl b.data st en with
            | some ns, some nd =>
              mergeLoopF fuel
                ((l.set i { a with search := a.search ++ ns, data := a.data ++ nd,
                                   «end» := b.«end» }).eraseIdx (i + 1)) i
            | _, _ => none
          else none
        else mergeLoopF fuel l (i + 1)
      | _, _ => none
    else some l

/-- `section_merge` (src/main.rs lines 325-361).  A one-section patch is
returned unchanged; an empty patch panics (`count = sections.len() - 1`
underflows in a debug build, and the release build then indexes
`sections[0]` out of bounds). -/
def sectionMerge (patch : Patch) : Option Patch :=
  if patch.sections.length = 1 then some patch
  else
    match patch.sections.length with
    | 0 => none
    | _ + 1 =>
      (mergeLoopF (patch.sections.length + 1) patch.sections 0).map
        (fun l => { sections := l })

/-- Sequential growth of every section, as in `build_patch` (src/main.rs
lines 164-167); each `grow_section` call only reads the buffers, so the
in-place loop is a map. -/
def mapOpt (f : PatchSection → Option PatchSection) : List PatchSection →
    Option (List PatchSection)
  | [] => some []
  | s :: rest =>
    match f s, mapOpt f rest with
    | some a, some l => some (a :: l)
    | _, _ => none

/-- The patch-building pipeline of `build_patch` (src/main.rs lines 109-181):
scan, grow every section, prune empty-search sections, merge.  When the scan
finds no section, no growing or merging runs (the code prints "No patch could
be generated"); this is modelled as the empty patch. -/
def buildPatchCore (src tr : List Nat) (follow : Nat) (oc : Bool)
    (testBuf : Option (List Nat)) (maxGrow : Nat) : Option Patch :=
  let p := buildPatchScan src tr follow oc
  if p.sections.isEmpty then some p
  else
    match mapOpt (fun s => growSection s src tr testBuf maxGrow) p.sections with
    | none => none
    | some secs => sectionMerge { sections := secs.filter (fun s => !s.search.isEmpty) }

/-- Result of `apply_patch` (src/main.rs lines 364-475) restricted to its
pure core: `panicked` is any Rust panic (index out of bounds), `tooMany` the
explicit `panic!("Too many sections found.")` of the detection check, and
`ok result success` the computed output buffer together with whether every
section was consumed (`success = false` prints "Failed to apply patch." and
writes nothing). -/
inductive ApplyOutcome where
  | panicked : ApplyOutcome
  | tooMany : ApplyOutcome
  | ok : List Nat → Bool → ApplyOutcome
deriving DecidableEq, Repr

/-- The primary pass of `apply_patch` (src/main.rs lines 411-447), returning
the emitted bytes from position `i` on and whether all sections were
consumed.  The final value already includes the "add any missing file bytes"
tail copy.  Validation is unguarded (`validAtUB`), as in the source. -/
def applyLoopF (input : List Nat) : Nat → List PatchSection → Nat →
    Option (List Nat × Bool)
  | 0, _, _ => none
  | fuel + 1, secs, i =>
    if i < input.length then
      match secs with
      | [] => some (input.drop i, true)
      | s :: rest =>
        match s.search with
        | [] => none
        | p :: ps =>
          if input.getD i 0 == p then
            match validAtUB input (p :: ps) i with
            | none => none
            | some true =>
              match applyLoopF input fuel rest (i + (p :: ps).length) with
              | none => none
              | some (r, ok) => some (s.data ++ r, ok)
            | some false =>
              match applyLoopF input fuel (s :: rest) (i + 1) with
              | none => none
              | some (r, ok) => some (input.getD i 0 :: r, ok)
          else
            match applyLoopF input fuel (s :: rest) (i + 1) with
            | none => none
            | some (r, ok) => some (input.getD i 0 :: r, ok)
    else some ([], secs.isEmpty)

/-- The detect pass of `apply_patch` (src/main.rs lines 382-406):
`section_count` is reset to 0 for every section, so after the loop it holds
the count of the LAST section only.  `none` models the `section.search[0]`
index panic on an empty pattern (only when the target buffer is non-empty,
since otherwise the scan loop body never runs). -/
def detectStep (input : List Nat) (acc : Option Nat) (s : PatchSection) : Option Nat :=
  match acc with
  | none => none
  | some _ =>
    match s.search with
    | [] => if input.isEmpty then some 0 else none
    | p :: ps => some (countOccF input p ps (input.length + 1) 0)

def detectLast (input : List Nat) (secs : List PatchSection) : Option Nat :=
  secs.foldl (detectStep input) (some 0)

/-- The detect-pass occurrence count of a single section's pattern. -/
def secCount (input : List Nat) (s : PatchSection) : Nat :=
  match s.search with
  | [] => 0
  | p :: ps => countOccF input p ps (input.length + 1) 0

/-- The total of the detect-pass occurrence counts over all sections (what
the specification says the inconsistency check compares; used to state the
claim, not part of the embedded code). -/
def detectSum (input : List Nat) (secs : List PatchSection) : Option Nat :=
  secs.foldl
    (fun acc s =>
      match acc with
      | none => none
      | some c =>
        match s.search with
        | [] => if input.isEmpty then some c else none
        | p :: ps => some (c + countOccF input p ps (input.length + 1) 0))
    (some 0)

/-- The occurrence count of the last section's pattern (0 for an empty
patch): the value `section_count` actually holds at src/main.rs line 407. -/
def lastCount (input : List Nat) (secs : List PatchSection) : Nat :=
  match secs.getLast? with
  | none => 0
  | some s => secCount input s

/-- The pure core of `apply_patch` (src/main.rs lines 364-475): optional
detect pass, the `section_count > patch.sections.len()` abort check (which
runs regardless of `detect`, over a counter that is 0 when `detect` is off),
then the primary substitution pass. -/
def applyPatch (detect : Bool) (input : List Nat) (secs : List PatchSection) :
    ApplyOutcome :=
  match (if detect then detectLast input secs else some 0) with
  | none => ApplyOutcome.panicked
  | some c =>
    if c > secs.length then ApplyOutcome.tooMany
    else
      match applyLoopF input (input.length + 1) secs 0 with
      | none => ApplyOutcome.panicked
      | some (r, success) => ApplyOutcome.ok r success

/-- Number of positions at which `pat` occurs in `buf` (full-match positions,
bounds included); "`pat` occurs uniquely in `buf`" is `matchCount buf pat = 1`. -/
def matchCount (buf pat : List Nat) : Nat :=
  (List.range buf.length).countP (fun q => validAtC buf pat q)

/-- Number of full-match positions of `pat` in `buf` at or after position `i`. -/
def matchesFrom (buf pat : List Nat) (i : Nat) : Nat :=
  (List.range' i (buf.length - i)).countP (fun q => validAtC buf pat q)

/-- Invariant of the differencing loop of `build_patch` for `only_char =
false`, after processing positions `0..i`: every section records exactly the
source/transformed bytes of its (contiguous, in-bounds) span, sections are
ordered with at least one untouched byte between them, every position outside
all spans is a match, the pending-gap buffers mirror the bytes between the
last section's end and `i`, and the control flags are consistent. -/
structure ScanInv (src tr : List Nat) (follow : Nat) (i : Nat) (st : ScanState) : Prop where
  secOK : ∀ s ∈ st.sections,
    s.start ≤ s.«end» ∧ s.«end» < i ∧
    s.search = listSlice src s.start s.«end» ∧ s.data = listSlice tr s.start s.«end»
  chain : List.Chain' (fun a b => a.«end» + 1 < b.start) st.sections
  cover : ∀ p, p < i → (∀ s ∈ st.sections, ¬(s.start ≤ p ∧ p ≤ s.«end»)) →
    src.getD p 0 = tr.getD p 0
  pend : st.fail_continue = true →
    ∃ lst, st.sections.getLast? = some lst ∧
      0 < st.extra_search.length ∧
      lst.«end» + 1 + st.extra_search.length = i ∧
      st.extra_search = listSlice src (lst.«end» + 1) (i - 1) ∧
      st.extra_data = listSlice tr (lst.«end» + 1) (i - 1)
  pendF : st.fail_continue = false → st.extra_search = [] ∧ st.extra_data = []
  patchT : st.patching = true →
    ∃ lst, st.sections.getLast? = some lst ∧ lst.«end» + 1 = i
  idleGap : st.patching = false → st.fail_continue = false →
    ∀ lst, st.sections.getLast? = some lst → lst.«end» + 2 ≤ i
  excl : ¬(st.patching = true ∧ st.fail_continue = true)
  failMono : st.patching = false → st.fail_continue = false → st.sections ≠ [] →
    follow ≤ st.fail_count

/-! ## Theorems -/

/-- C2: merging the two touching sections
`{start:0,end:2,search:[a,b,c],data:[x,y,z]}` and
`{start:2,end:4,search:[c,d,e],data:[z,w,v]}` (here a..e = 10..14,
x..v = 20..24).  The code's splice offsets `start = i.end - i.start = 2` and
`end = (i+1).end - i.end = 2` select only index 2 of the second section's
buffers, so the merged section is `{0,4,[a,b,c,e],[x,y,z,v]}`: the byte `d`
(13) at offset 3 and its replacement `w` (23) are dropped, not the claimed
`{0,4,[a,b,c,d,e],[x,y,z,w,v]}`. -/
theorem c2_merge_divergence :
    sectionMerge { sections := [⟨1, 0, 2, [10, 11, 12], [20, 21, 22]⟩,
                                ⟨2, 2, 4, [12, 13, 14], [22, 23, 24]⟩] } =
      some { sections := [⟨1, 0, 4, [10, 11, 12, 14], [20, 21, 22, 24]⟩] } := by
  decide

/-- C6: a section whose `end` is the last valid index of the source buffer
makes `section_append` slice `input[(end+1)..=input.len()]`, an out-of-bounds
inclusive slice: the code panics (modelled `none`) instead of the claimed
no-op. -/
theorem c6_append_oob :
    section_append ⟨1, 0, 0, [1], [2]⟩ [1] [2] 1 = none := by
  decide

/-- C7: the primary pass of `apply_patch` validates the current section with
unguarded indexing; on target `[5]` with a section whose search is `[5,6]`,
the first byte matches at position 0 and validation reads `input[1]`, out of
bounds: the code panics instead of treating the position as a non-match. -/
theorem c7_apply_oob :
    applyPatch false [5] [⟨1, 0, 1, [5, 6], [7, 8]⟩] = ApplyOutcome.panicked := by
  decide

/-- C3 (counterexample): with `follow = 1`, source `[0,1,0,1,0]` and
transformed `[9,1,9,1,9]` have mismatches at positions 0, 2, 4 separated by
gaps of length exactly 1 ≤ follow each, yet the scan yields two sections,
because the gap counter is not reset when the mismatch at position 2 extends
the open section, so the gap at position 3 exhausts the tolerance.  Under
the claimed per-gap reset a single section spanning 0..4 would result. -/
theorem c3_gap_counter_cx :
    (buildPatchScan [0, 1, 0, 1, 0] [9, 1, 9, 1, 9] 1 false).sections =
      [⟨1, 0, 2, [0, 1, 0], [9, 1, 9]⟩, ⟨2, 4, 4, [0], [9]⟩] := by
  decide

/-- C3 (amended): in the scan, the gap counter `fail_count` is reset only
when a fresh section is opened (not patching, no pending gap); an eligible
mismatch that extends an already-open section — directly or through a
pending gap — leaves the counter unchanged, so `follow` bounds the
cumulative number of non-extending bytes over a section's lifetime. -/
theorem c3_gap_counter_amended : ∀ (src tr : List Nat) (follow : Nat) (oc : Bool)
    (st : ScanState) (i : Nat),
    src.getD i 0 ≠ tr.getD i 0 →
    ((0x30 ≤ src.getD i 0 ∧ src.getD i 0 ≤ 0x71) ∨ oc = false) →
    ((st.patching = false ∧ st.fail_continue = false →
        (scanStep src tr follow oc st i).fail_count = 0) ∧
     ((st.patching = true ∨ st.fail_continue = true) →
        (scanStep src tr follow oc st i).fail_count = st.fail_count)) := by
  intro src tr follow oc st i hne hel
  simp only [List.getD_eq_getElem?_getD] at hne hel
  constructor
  · rintro ⟨hp, hf⟩
    simp [scanStep, hne, hel, hp, hf]
  · intro hor
    rcases hor with h | h
    · rcases hfc : st.fail_continue with _ | _ <;> simp [scanStep, hne, hel, h, hfc]
    · simp [scanStep, hne, hel, h]

/-- C3 (amended, witness): at a state with an open section and
`fail_count = 3`, the eligible mismatch at position 0 of `[1]` vs `[2]`
leaves the counter at 3. -/
theorem c3_gap_counter_amended_witness :
    (scanStep [1] [2] 6 false ⟨[⟨1, 0, 0, [0], [0]⟩], true, 3, false, [], []⟩ 0).fail_count
      = 3 :=
  (c3_gap_counter_amended [1] [2] 6 false ⟨[⟨1, 0, 0, [0], [0]⟩], true, 3, false, [], []⟩ 0
    (by decide) (Or.inr rfl)).2 (Or.inl rfl)

/-- C4 (counterexample): `grow_section` is called with the default reference
(the source buffer, `test : Option = none`) on a section whose pattern `[5]`
does not occur in the reference `[0]`, so the occurrence count is 0 under all
three strategies including the last one; yet the section is returned with its
search/data intact (the clearing at src/main.rs lines 266-269 is guarded by
`opt.test.is_some()`), so it is not pruned, contrary to the claim's
"regardless of whether the reference ... defaults to the source buffer". -/
theorem c4_prune_cx :
    growCount [0] [5] = some 0 ∧
    growSection ⟨1, 0, 0, [5], [6]⟩ [0] [0] none 10 = some ⟨1, 0, 0, [5], [6]⟩ := by
  decide

/-- C4 (amended): when the occurrence count is 0 and the active strategy is
the last one (alternating), the grow loop clears the section's search/data
only when an external test buffer was supplied; with the default source
reference it stops and leaves the original section unchanged (not pruned). -/
theorem c4_prune_amended : ∀ (f : Nat) (orig ns : PatchSection) (input patched tf : List Nat)
    (ts : Bool) (mg after strat : Nat) (pp : Bool),
    after ≤ mg → 2 ≤ strat → growCount tf ns.search = some 0 →
    growLoopF orig input patched tf ts mg (f + 1) ns after strat pp =
      some (if ts then { orig with search := [], data := [] } else orig) := by
  intro f orig ns input patched tf ts mg after strat pp hle hstrat hc
  simp only [growLoopF]
  rw [if_neg (by omega), hc]
  simp [hstrat]
  split <;> rfl

/-- C4 (amended, witness): with an external test buffer the section comes
back cleared, with the default source reference it comes back unchanged. -/
theorem c4_prune_amended_witness :
    growLoopF ⟨1, 0, 0, [9], [8]⟩ [0] [0] [0] true 5 1 ⟨1, 0, 0, [9], [8]⟩ 0 2 false =
        some ⟨1, 0, 0, [], []⟩ ∧
    growLoopF ⟨1, 0, 0, [9], [8]⟩ [0] [0] [0] false 5 1 ⟨1, 0, 0, [9], [8]⟩ 0 2 false =
        some ⟨1, 0, 0, [9], [8]⟩ :=
  ⟨c4_prune_amended 0 ⟨1, 0, 0, [9], [8]⟩ ⟨1, 0, 0, [9], [8]⟩ [0] [0] [0] true 5 0 2 false
      (by decide) (by decide) (by decide),
   c4_prune_amended 0 ⟨1, 0, 0, [9], [8]⟩ ⟨1, 0, 0, [9], [8]⟩ [0] [0] [0] false 5 0 2 false
      (by decide) (by decide) (by decide)⟩

/-- C8 (counterexample): with growth budget `max_grow = 0` and a reference in
which the pattern stays ambiguous, one extension step is performed under the
append strategy (the loop admits a round whenever the spent budget is still
`≤ max_grow`, and charges/extends inside it), exceeding the claimed bound of
at most `max_grow = 0` extension steps; the grown copy is then discarded and
the original section returned. -/
theorem c8_budget_cx :
    growStepsTop ⟨1, 0, 0, [1], [2]⟩ [1, 1, 1, 1] [2, 2, 2, 2] none 0 =
      some (⟨1, 0, 0, [1], [2]⟩, 1) := by
  decide

theorem growStepsF_le : ∀ (fuel : Nat) (orig : PatchSection) (input patched tf : List Nat)
    (ts : Bool) (mg : Nat) (ns : PatchSection) (after strat : Nat) (pp : Bool)
    (acc : Nat) (r : PatchSection) (n : Nat), acc ≤ mg + 1 →
    growStepsF orig input patched tf ts mg fuel ns after strat pp acc = some (r, n) →
    n ≤ mg + 1 := by
  intro fuel
  induction fuel with
  | zero =>
    intro orig input patched tf ts mg ns after strat pp acc r n hacc h
    exact absurd h (by simp [growStepsF])
  | succ f ih =>
    intro orig input patched tf ts mg ns after strat pp acc r n hacc h
    simp only [growStepsF] at h
    split at h
    · simp only [Option.some.injEq, Prod.mk.injEq] at h
      exact h.2 ▸ hacc
    · rename_i hgt
      split at h
      · exact absurd h (by simp)
      · split at h
        · split at h
          · exact absurd h (by simp)
          · exact ih _ _ _ _ _ _ _ _ _ _ _ _ _ (by omega) h
        · split at h
          · split at h <;>
              (simp only [Option.some.injEq, Prod.mk.injEq] at h; exact h.2 ▸ hacc)
          · split at h
            · split at h <;>
                (simp only [Option.some.injEq, Prod.mk.injEq] at h; exact h.2 ▸ hacc)
            · exact ih _ _ _ _ _ _ _ _ _ _ _ _ _ hacc h

/-- C8 (amended): each ambiguous round charges one unit and then extends, and
a round is admitted whenever the already-spent budget is `≤ max_grow`, so at
most `max_grow + 1` extension steps are performed under any single strategy;
and whenever the loop re-checks with the budget exhausted (`after >
max_grow`), the original section is returned unchanged. -/
theorem c8_budget_amended :
    (∀ (f : Nat) (orig : PatchSection) (input patched tf : List Nat) (ts : Bool)
        (mg : Nat) (ns : PatchSection) (after strat : Nat) (pp : Bool), mg < after →
        growLoopF orig input patched tf ts mg (f + 1) ns after strat pp = some orig) ∧
    (∀ (s : PatchSection) (input patched : List Nat) (tb : Option (List Nat)) (mg : Nat)
        (r : PatchSection) (n : Nat),
        growStepsTop s input patched tb mg = some (r, n) → n ≤ mg + 1) := by
  constructor
  · intro f orig input patched tf ts mg ns after strat pp hgt
    simp only [growLoopF]
    rw [if_pos (by omega)]
  · intro s input patched tb mg r n h
    exact growStepsF_le _ s input patched _ _ mg s 0 0 false 0 r n (by omega) h

/-- C8 (amended, witness): exhausted budget returns the original section, and
the instrumented run with budget 0 performs 1 ≤ 0 + 1 extension steps. -/
theorem c8_budget_amended_witness :
    growLoopF ⟨1, 0, 0, [1], [2]⟩ [1] [2] [1] false 2 4 ⟨1, 0, 0, [1], [2]⟩ 3 0 false =
        some ⟨1, 0, 0, [1], [2]⟩ ∧ (1 : Nat) ≤ 0 + 1 :=
  ⟨c8_budget_amended.1 3 ⟨1, 0, 0, [1], [2]⟩ [1] [2] [1] false 2 ⟨1, 0, 0, [1], [2]⟩ 3 0 false
      (by decide),
   c8_budget_amended.2 ⟨1, 0, 0, [1], [2]⟩ [1, 1, 1, 1] [2, 2, 2, 2] none 0
      ⟨1, 0, 0, [1], [2]⟩ 1 (by decide)⟩

/-- C5 (counterexample): target `[1,1,1,2]`, two sections with patterns `[1]`
(3 occurrences) and `[2]` (1 occurrence): the summed occurrence count is 4 >
2 sections, yet application does not abort — the detect pass resets
`section_count` per section, so the final check only sees the last section's
count (1 ≤ 2) and the substitution pass runs. -/
theorem c5_detect_cx :
    detectSum [1, 1, 1, 2] [⟨1, 0, 0, [1], [7]⟩, ⟨2, 3, 3, [2], [8]⟩] = some 4 ∧
    2 < 4 ∧
    applyPatch true [1, 1, 1, 2] [⟨1, 0, 0, [1], [7]⟩, ⟨2, 3, 3, [2], [8]⟩] =
      ApplyOutcome.ok [7, 1, 1, 8] true := by
  decide

theorem detectLast_foldl : ∀ (secs : List PatchSection) (input : List Nat) (c0 : Nat),
    (∀ s ∈ secs, s.search ≠ []) →
    secs.foldl (detectStep input) (some c0) =
      some (match secs.getLast? with
            | none => c0
            | some s => secCount input s) := by
  intro secs
  induction secs with
  | nil => intro input c0 _; rfl
  | cons s rest ih =>
    intro input c0 h
    have hs : s.search ≠ [] := h s (by simp)
    obtain ⟨p, ps, hps⟩ := List.exists_cons_of_ne_nil hs
    have hstep : detectStep input (some c0) s = some (secCount input s) := by
      simp [detectStep, secCount, hps]
    rw [List.foldl_cons, hstep, ih input _ (fun a ha => h a (by simp [ha]))]
    cases rest with
    | nil => rfl
    | cons r rs =>
      rw [List.getLast?_cons_cons]
      cases hgl : (r :: rs).getLast? with
      | none => exact absurd (List.getLast?_eq_none_iff.mp hgl) (by simp)
      | some l => rfl

/-- C5 (amended): with detect enabled (and no section having an empty search
pattern, which would panic first), application aborts before substitution if
and only if the number of non-overlapping occurrences of the LAST section's
search pattern in the target exceeds the number of sections; the counts of
the other sections are computed but overwritten. -/
theorem c5_detect_amended : ∀ (input : List Nat) (secs : List PatchSection),
    (∀ s ∈ secs, s.search ≠ []) →
    (applyPatch true input secs = ApplyOutcome.tooMany ↔
      secs.length < lastCount input secs) := by
  intro input secs h
  have hd : detectLast input secs = some (lastCount input secs) := by
    rw [detectLast, detectLast_foldl secs input 0 h, lastCount]
  unfold applyPatch
  rw [if_pos rfl, hd]
  by_cases hc : lastCount input secs > secs.length
  · simp [hc]
  · cases happly : applyLoopF input (input.length + 1) secs 0 with
    | none => simp [happly, hc]
    | some v =>
      cases v with
      | mk r b => simp [happly, hc]

/-- C5 (amended, witness): one section whose pattern `[1]` occurs 3 times in
`[1,1,1]`: 1 section < 3 occurrences of the last (only) pattern, and
application indeed aborts. -/
theorem c5_detect_amended_witness :
    applyPatch true [1, 1, 1] [⟨1, 0, 0, [1], [7]⟩] = ApplyOutcome.tooMany ↔
      ([⟨1, 0, 0, [1], [7]⟩] : List PatchSection).length <
        lastCount [1, 1, 1] [⟨1, 0, 0, [1], [7]⟩] :=
  c5_detect_amended [1, 1, 1] [⟨1, 0, 0, [1], [7]⟩] (by decide)

/-- C10 (counterexample): the empty sequence of sections is (vacuously)
sorted and pairwise non-touching, yet `section_merge` panics on it
(`count = sections.len() - 1` underflows, or the release build indexes
`sections[0]` out of bounds) instead of returning it unchanged. -/
theorem c10_merge_idem_cx : sectionMerge { sections := [] } = none := by
  decide

theorem mergeLoopF_id : ∀ (fuel : Nat) (l : List PatchSection) (i : Nat),
    l.length - i < fuel →
    List.Chain' (fun a b => a.«end» < b.start) l →
    mergeLoopF fuel l i = some l := by
  intro fuel
  induction fuel with
  | zero => intro l i hf _; exact absurd hf (by omega)
  | succ f ih =>
    intro l i hf hch
    simp only [mergeLoopF]
    by_cases hi : i < l.length - 1
    · rw [if_pos hi]
      have hi1 : i < l.length := by omega
      have hi2 : i + 1 < l.length := by omega
      split
      · rename_i a b ha hb
        rw [List.getElem?_eq_getElem hi1] at ha
        rw [List.getElem?_eq_getElem hi2] at hb
        obtain rfl : l[i] = a := Option.some.inj ha
        obtain rfl : l[i + 1] = b := Option.some.inj hb
        have hrel : l[i].«end» < l[i + 1].start := by
          have := List.chain'_iff_get.mp hch i (by omega)
          simpa [List.get_eq_getElem] using this
        rw [if_neg (by omega)]
        exact ih l (i + 1) (by omega) hch
      · rename_i hnone
        exfalso
        exact hnone l[i] l[i + 1] (List.getElem?_eq_getElem hi1)
          (List.getElem?_eq_getElem hi2)
    · rw [if_neg hi]

/-- C10 (amended): merging a NON-EMPTY sequence of sections sorted by start
and pairwise non-touching (each section's end strictly below the next
section's start) returns it unchanged; the empty sequence instead panics. -/
theorem c10_merge_idem_amended : ∀ (patch : Patch), patch.sections ≠ [] →
    List.Chain' (fun a b => a.«end» < b.start) patch.sections →
    sectionMerge patch = some patch := by
  intro patch hne hch
  unfold sectionMerge
  by_cases h1 : patch.sections.length = 1
  · rw [if_pos h1]
  · rw [if_neg h1]
    cases hl : patch.sections.length with
    | zero => exact absurd (List.length_eq_zero.mp hl) hne
    | succ n =>
      simp only
      rw [mergeLoopF_id (n + 1 + 1) patch.sections 0 (by omega) hch]
      rfl

/-- C10 (amended, witness): two non-touching sections survive merging
unchanged. -/
theorem c10_merge_idem_amended_witness :
    sectionMerge { sections := [⟨1, 0, 1, [1, 2], [3, 4]⟩, ⟨2, 3, 4, [5, 6], [7, 8]⟩] } =
      some { sections := [⟨1, 0, 1, [1, 2], [3, 4]⟩, ⟨2, 3, 4, [5, 6], [7, 8]⟩] } :=
  c10_merge_idem_amended
    { sections := [⟨1, 0, 1, [1, 2], [3, 4]⟩, ⟨2, 3, 4, [5, 6], [7, 8]⟩] }
    (by decide) (by simp [List.chain'_cons])

theorem scanN_succ (src tr : List Nat) (f : Nat) (oc : Bool) (n : Nat) :
    scanN src tr f oc (n + 1) = scanStep src tr f oc (scanN src tr f oc n) n := by
  unfold scanN
  rw [List.range_succ, List.foldl_append, List.foldl_cons, List.foldl_nil]

theorem modifyLast_pres {P : PatchSection → Prop} (g : PatchSection → PatchSection)
    (hg : ∀ a, P a → P (g a)) : ∀ (l : List PatchSection), (∀ s ∈ l, P s) →
    ∀ s ∈ modifyLast g l, P s := by
  intro l
  induction l with
  | nil => intro _ s hs; exact absurd hs (by simp [modifyLast])
  | cons a rest ih =>
    intro h s hs
    cases rest with
    | nil =>
      simp only [modifyLast, List.mem_singleton] at hs
      exact hs ▸ hg a (h a (by simp))
    | cons b t =>
      simp only [modifyLast, List.mem_cons] at hs
      rcases hs with rfl | hs
      · exact h s (by simp)
      · exact ih (fun x hx => h x (List.mem_cons_of_mem a hx)) s hs

theorem scan_len_inv (src tr : List Nat) (f : Nat) (oc : Bool) : ∀ n,
    (∀ s ∈ (scanN src tr f oc n).sections, s.search.length = s.data.length) ∧
    (scanN src tr f oc n).extra_search.length = (scanN src tr f oc n).extra_data.length := by
  intro n
  induction n with
  | zero => exact ⟨by simp [scanN, scanInit], rfl⟩
  | succ m ih =>
    rw [scanN_succ]
    obtain ⟨h1, h2⟩ := ih
    set st := scanN src tr f oc m with hst
    have hExt : ∀ (l : List PatchSection),
        (∀ s ∈ l, s.search.length = s.data.length) →
        ∀ s ∈ modifyLast
          (fun s => { s with search := s.search ++ [src.getD m 0],
                             data := s.data ++ [tr.getD m 0], «end» := m }) l,
          s.search.length = s.data.length :=
      fun l hl => modifyLast_pres _ (fun a ha => by simp [ha]) l hl
    have hSpl : ∀ (l : List PatchSection),
        (∀ s ∈ l, s.search.length = s.data.length) →
        ∀ s ∈ modifyLast
          (fun s => { s with search := s.search ++ st.extra_search,
                             data := s.data ++ st.extra_data }) l,
          s.search.length = s.data.length :=
      fun l hl => modifyLast_pres _ (fun a ha => by simp [ha, h2]) l hl
    have hPush : ∀ s ∈ st.sections ++
        [({ id := st.sections.length + 1, start := m, «end» := 0, search := [],
            data := [] } : PatchSection)], s.search.length = s.data.length := by
      intro s hs
      rcases List.mem_append.mp hs with hs | hs
      · exact h1 s hs
      · simp only [List.mem_singleton] at hs; subst hs; rfl
    rcases hp : st.patching with _ | _ <;> rcases hf : st.fail_continue with _ | _ <;>
      simp only [scanStep, hp, hf, Bool.true_eq_false, Bool.false_eq_true,
        eq_self_iff_true, true_and, and_true, false_and, and_false, if_true, if_false] <;>
      split
    · exact ⟨hExt _ hPush, h2⟩
    · split
      · exact ⟨h1, by simp [h2]⟩
      · exact ⟨h1, rfl⟩
    · exact ⟨hExt _ (hSpl _ h1), rfl⟩
    · split
      · exact ⟨h1, by simp [h2]⟩
      · exact ⟨h1, rfl⟩
    · exact ⟨hExt _ h1, h2⟩
    · split
      · exact ⟨h1, by simp [h2]⟩
      · exact ⟨h1, rfl⟩
    · exact ⟨hExt _ (hSpl _ h1), rfl⟩
    · split
      · exact ⟨h1, by simp [h2]⟩
      · exact ⟨h1, rfl⟩

theorem sliceIncl_length (buf : List Nat) (a b : Nat) (xs : List Nat)
    (h : sliceIncl buf a b = some xs) : xs.length = b + 1 - a := by
  unfold sliceIncl at h
  split at h
  · rename_i hab
    obtain rfl : (buf.drop a).take (b + 1 - a) = xs := Option.some.inj h
    simp only [List.length_take, List.length_drop]
    omega
  · exact absurd h (by simp)

theorem section_append_len (s s' : PatchSection) (input patched : List Nat) (amount : Nat)
    (h : s.search.length = s.data.length)
    (hs : section_append s input patched amount = some s') :
    s'.search.length = s'.data.length := by
  simp only [section_append] at hs
  split at hs
  · rename_i xs ys hx hy
    obtain rfl := Option.some.inj hs
    have := sliceIncl_length _ _ _ _ hx
    have := sliceIncl_length _ _ _ _ hy
    simp only [List.length_append]
    omega
  · exact absurd hs (by simp)

theorem section_preappend_len (s s' : PatchSection) (input patched : List Nat)
    (h : s.search.length = s.data.length)
    (hs : section_preappend s input patched = some s') :
    s'.search.length = s'.data.length := by
  unfold section_preappend at hs
  split at hs
  · split at hs
    · obtain rfl := Option.some.inj hs
      simp [h]
    · exact absurd hs (by simp)
  · obtain rfl := Option.some.inj hs
    exact h

theorem growLoopF_len : ∀ (fuel : Nat) (orig ns : PatchSection) (input patched tf : List Nat)
    (ts : Bool) (mg after strat : Nat) (pp : Bool) (s' : PatchSection),
    orig.search.length = orig.data.length → ns.search.length = ns.data.length →
    growLoopF orig input patched tf ts mg fuel ns after strat pp = some s' →
    s'.search.length = s'.data.length := by
  intro fuel
  induction fuel with
  | zero =>
    intro orig ns input patched tf ts mg after strat pp s' _ _ h
    exact absurd h (by simp [growLoopF])
  | succ f ih =>
    intro orig ns input patched tf ts mg after strat pp s' ho hn h
    simp only [growLoopF] at h
    split at h
    · obtain rfl := Option.some.inj h; exact ho
    · split at h
      · exact absurd h (by simp)
      · split at h
        · split at h
          · exact absurd h (by simp)
          · rename_i ns' heq
            have hn' : ns'.search.length = ns'.data.length := by
              split at heq
              · exact section_append_len _ _ _ _ _ hn heq
              · split at heq
                · exact section_preappend_len _ _ _ _ hn heq
                · split at heq
                  · exact section_append_len _ _ _ _ _ hn heq
                  · exact section_preappend_len _ _ _ _ hn heq
            exact ih _ _ _ _ _ _ _ _ _ _ _ ho hn' h
        · split at h
          · split at h <;> (obtain rfl := Option.some.inj h)
            · exact hn
            · exact ho
          · split at h
            · split at h <;> (obtain rfl := Option.some.inj h)
              · rfl
              · exact ho
            · exact ih _ _ _ _ _ _ _ _ _ _ _ ho ho h

theorem mergeLoopF_len : ∀ (fuel : Nat) (l : List PatchSection) (i : Nat)
    (l' : List PatchSection),
    (∀ s ∈ l, s.search.length = s.data.length) →
    mergeLoopF fuel l i = some l' →
    ∀ s ∈ l', s.search.length = s.data.length := by
  intro fuel
  induction fuel with
  | zero =>
    intro l i l' _ h
    exact absurd h (by simp [mergeLoopF])
  | succ f ih =>
    intro l i l' hl h
    simp only [mergeLoopF] at h
    split at h
    · split at h
      · rename_i a b ha hb
        have haI : a ∈ l := by
          rcases List.getElem?_eq_some_iff.mp ha with ⟨hw, hh⟩
          exact hh ▸ List.getElem_mem hw
        split at h
        · split at h
          · split at h
            · rename_i ns nd hns hnd
              refine ih _ _ _ ?_ h
              intro s hs
              have hs' := List.mem_of_mem_eraseIdx hs
              rcases List.mem_or_eq_of_mem_set hs' with hs'' | rfl
              · exact hl s hs''
              · have h1 := sliceIncl_length _ _ _ _ hns
                have h2 := sliceIncl_length _ _ _ _ hnd
                have h3 := hl a haI
                simp only [List.length_append]
                omega
            · exact absurd h (by simp)
          · exact absurd h (by simp)
        · exact ih _ _ _ hl h
      · exact absurd h (by simp)
    · obtain rfl := Option.some.inj h
      exact hl

/-- C9: the `len(search) == len(data)` invariant holds at every stage of the
pipeline: (a) every section emitted by the differencing scan satisfies it
(for equal-length input buffers), (b) `grow_section` preserves it under any
strategy and outcome, and (c) `section_merge` preserves it for every section
of the merged patch. -/
theorem c9_length_invariant :
    (∀ (src tr : List Nat) (f : Nat) (oc : Bool), src.length = tr.length →
      ∀ s ∈ (buildPatchScan src tr f oc).sections, s.search.length = s.data.length) ∧
    (∀ (s : PatchSection) (input patched : List Nat) (tb : Option (List Nat)) (mg : Nat)
      (s' : PatchSection), s.search.length = s.data.length →
      growSection s input patched tb mg = some s' →
      s'.search.length = s'.data.length) ∧
    (∀ (p p' : Patch), (∀ s ∈ p.sections, s.search.length = s.data.length) →
      sectionMerge p = some p' → ∀ s ∈ p'.sections, s.search.length = s.data.length) := by
  refine ⟨?_, ?_, ?_⟩
  · intro src tr f oc _ s hs
    exact (scan_len_inv src tr f oc src.length).1 s hs
  · intro s input patched tb mg s' hlen hg
    exact growLoopF_len _ s s input patched _ _ mg 0 0 false s' hlen hlen hg
  · intro p p' hp hm s hs
    unfold sectionMerge at hm
    split at hm
    · obtain rfl := Option.some.inj hm
      exact hp s hs
    · split at hm
      · exact absurd hm (by simp)
      · cases hml : mergeLoopF (p.sections.length + 1) p.sections 0 with
        | none => rw [hml] at hm; exact absurd hm (by simp)
        | some l =>
          rw [hml] at hm
          obtain rfl : ({ sections := l } : Patch) = p' := Option.some.inj hm
          exact mergeLoopF_len _ _ _ _ hp hml s hs

/-- C9 (witness): concrete instances of all three parts. -/
theorem c9_length_invariant_witness :
    (∀ s ∈ (buildPatchScan [0, 1, 2, 3, 4, 5] [0, 9, 2, 9, 4, 5] 1 false).sections,
      s.search.length = s.data.length) ∧
    (⟨1, 0, 2, [1, 2, 3], [7, 8, 3]⟩ : PatchSection).search.length =
      (⟨1, 0, 2, [1, 2, 3], [7, 8, 3]⟩ : PatchSection).data.length ∧
    (∀ s ∈ ({ sections := [⟨1, 0, 1, [1, 2], [3, 4]⟩] } : Patch).sections,
      s.search.length = s.data.length) :=
  ⟨c9_length_invariant.1 [0, 1, 2, 3, 4, 5] [0, 9, 2, 9, 4, 5] 1 false (by decide),
   c9_length_invariant.2.1 ⟨1, 0, 1, [1, 2], [7, 8]⟩ [1, 2, 3, 1, 2, 9] [7, 8, 3, 1, 2, 9]
     none 10 ⟨1, 0, 2, [1, 2, 3], [7, 8, 3]⟩ (by decide) (by decide),
   c9_length_invariant.2.2 { sections := [⟨1, 0, 1, [1, 2], [3, 4]⟩] }
     { sections := [⟨1, 0, 1, [1, 2], [3, 4]⟩] } (by decide) (by decide)⟩

theorem listSlice_length (buf : List Nat) (a b : Nat) (hb : b < buf.length) :
    (listSlice buf a b).length = b + 1 - a := by
  simp only [listSlice, List.length_take, List.length_drop]
  omega

theorem listSlice_ne_nil (buf : List Nat) (a b : Nat) (hab : a ≤ b) (hb : b < buf.length) :
    listSlice buf a b ≠ [] := by
  intro h
  have := listSlice_length buf a b hb
  rw [h] at this
  simp at this
  omega

theorem listSlice_getD (buf : List Nat) (a b j : Nat) (hj : a + j ≤ b) (hb : b < buf.length) :
    (listSlice buf a b).getD j 0 = buf.getD (a + j) 0 := by
  have hjlen : j < (listSlice buf a b).length := by rw [listSlice_length buf a b hb]; omega
  have hablen : a + j < buf.length := by omega
  rw [List.getD_eq_getElem _ _ hjlen, List.getD_eq_getElem _ _ hablen]
  simp only [listSlice, List.getElem_take, List.getElem_drop]

theorem listSlice_append_slice (buf : List Nat) (a b c : Nat) (hab : a ≤ b + 1) (hbc : b ≤ c) :
    listSlice buf a b ++ listSlice buf (b + 1) c = listSlice buf a c := by
  unfold listSlice
  rw [show c + 1 - a = (b + 1 - a) + (c - b) by omega, List.take_add]
  congr 1
  rw [List.drop_drop]
  congr 1
  · omega
  · congr 1
    omega

theorem listSlice_singleton (buf : List Nat) (a : Nat) (ha : a < buf.length) :
    listSlice buf a a = [buf.getD a 0] := by
  unfold listSlice
  rw [show a + 1 - a = 1 by omega, List.drop_eq_getElem_cons ha,
    List.getD_eq_getElem buf 0 ha]
  rfl

theorem drop_eq_slice_append (buf : List Nat) (a b : Nat) (hab : a ≤ b)
    (_hb : b < buf.length) :
    buf.drop a = listSlice buf a b ++ buf.drop (b + 1) := by
  unfold listSlice
  conv_lhs => rw [← List.take_append_drop (b + 1 - a) (buf.drop a)]
  congr 1
  rw [List.drop_drop]
  congr 1
  omega

theorem drop_eq_getD_cons (buf : List Nat) (i : Nat) (hi : i < buf.length) :
    buf.drop i = buf.getD i 0 :: buf.drop (i + 1) := by
  rw [List.drop_eq_getElem_cons hi, List.getD_eq_getElem buf 0 hi]

theorem drop_pointwise_eq (src tr : List Nat) (i : Nat) (hlen : src.length = tr.length)
    (h : ∀ p, i ≤ p → p < src.length → src.getD p 0 = tr.getD p 0) :
    src.drop i = tr.drop i := by
  apply List.ext_getElem
  · simp [hlen]
  · intro j h1 h2
    have hj : i + j < src.length := by
      simp only [List.length_drop] at h1
      omega
    have hj' : i + j < tr.length := by omega
    rw [List.getElem_drop, List.getElem_drop]
    have := h (i + j) (by omega) hj
    rw [List.getD_eq_getElem src 0 hj, List.getD_eq_getElem tr 0 hj'] at this
    exact this

theorem validAtC_iff (buf : List Nat) : ∀ (pat : List Nat) (k : Nat),
    validAtC buf pat k = true ↔
      ∀ j < pat.length, k + j < buf.length ∧ buf.getD (k + j) 0 = pat.getD j 0 := by
  intro pat
  induction pat with
  | nil => intro k; simp [validAtC]
  | cons p ps ih =>
    intro k
    simp only [validAtC]
    constructor
    · intro h
      split at h
      · rename_i hk
        rw [Bool.and_eq_true, beq_iff_eq] at h
        obtain ⟨h1, h2⟩ := h
        have h4 := (ih (k + 1)).mp h2
        intro j hj
        cases j with
        | zero => exact ⟨by omega, by simpa using h1⟩
        | succ m =>
          obtain ⟨hm1, hm2⟩ := h4 m (by simp only [List.length_cons] at hj; omega)
          refine ⟨by omega, ?_⟩
          rw [show k + (m + 1) = k + 1 + m by omega]
          simpa using hm2
      · exact absurd h (by simp)
    · intro h2
      have hk : k < buf.length := by
        have := (h2 0 (by simp)).1
        omega
      rw [if_pos hk, Bool.and_eq_true, beq_iff_eq]
      constructor
      · have := (h2 0 (by simp)).2
        simpa using this
      · rw [ih (k + 1)]
        intro j hj
        obtain ⟨hm1, hm2⟩ := h2 (j + 1) (by simp only [List.length_cons]; omega)
        refine ⟨by omega, ?_⟩
        rw [show k + (j + 1) = k + 1 + j by omega] at hm2
        simpa using hm2

theorem validAtC_slice (buf : List Nat) (a b : Nat) (hab : a ≤ b) (hb : b < buf.length) :
    validAtC buf (listSlice buf a b) a = true := by
  rw [validAtC_iff]
  intro j hj
  rw [listSlice_length buf a b hb] at hj
  refine ⟨by omega, ?_⟩
  rw [listSlice_getD buf a b j (by omega) hb]

theorem validAtUB_eq (buf : List Nat) : ∀ (pat : List Nat) (k : Nat),
    (∀ j < pat.length, k + j < buf.length) →
    validAtUB buf pat k = some (validAtC buf pat k) := by
  intro pat
  induction pat with
  | nil => intro k _; rfl
  | cons p ps ih =>
    intro k hb
    have hk : k < buf.length := by
      have := hb 0 (by simp)
      omega
    simp only [validAtUB, validAtC, if_pos hk]
    by_cases hp : buf.getD k 0 == p
    · rw [if_pos hp, hp]
      rw [ih (k + 1) (fun j hj => by
        have := hb (j + 1) (by simp only [List.length_cons]; omega)
        omega)]
      simp
    · rw [if_neg hp]
      rw [Bool.not_eq_true] at hp
      rw [hp]
      simp

theorem matchesFrom_ge (buf pat : List Nat) (i : Nat) (hi : buf.length ≤ i) :
    matchesFrom buf pat i = 0 := by
  unfold matchesFrom
  rw [show buf.length - i = 0 by omega]
  rfl

theorem matchesFrom_step (buf pat : List Nat) (i : Nat) (hi : i < buf.length) :
    matchesFrom buf pat i =
      (if validAtC buf pat i = true then 1 else 0) + matchesFrom buf pat (i + 1) := by
  unfold matchesFrom
  rw [show buf.length - i = (buf.length - (i + 1)) + 1 by omega, List.range'_succ,
    List.countP_cons]
  by_cases h : validAtC buf pat i = true
  · simp [h]
    omega
  · simp only [Bool.not_eq_true] at h
    simp [h]

theorem matchesFrom_zero_mono (buf pat : List Nat) (i j : Nat) (hij : i ≤ j)
    (h : matchesFrom buf pat i = 0) : matchesFrom buf pat j = 0 := by
  by_cases hj : j < buf.length
  · unfold matchesFrom at h ⊢
    have hsplit : List.range' i (buf.length - i) =
        List.range' i (j - i) ++ List.range' j (buf.length - j) := by
      have hx := List.range'_append i (j - i) (buf.length - j) 1
      simp only [one_mul] at hx
      rw [show i + (j - i) = j by omega, show buf.length - j + (j - i) = buf.length - i
        by omega] at hx
      exact hx.symm
    rw [hsplit, List.countP_append] at h
    omega
  · exact matchesFrom_ge buf pat j (by omega)

theorem matchCount_eq_matchesFrom (buf pat : List Nat) :
    matchCount buf pat = matchesFrom buf pat 0 := by
  unfold matchCount matchesFrom
  rw [List.range_eq_range']
  rfl

theorem guard_eq_validAtC (buf : List Nat) (p : Nat) (ps : List Nat) (i : Nat) :
    (buf.getD i 0 == p && validAtC buf (p :: ps) i) = validAtC buf (p :: ps) i := by
  cases hv : validAtC buf (p :: ps) i with
  | false => simp
  | true =>
    have h0 := ((validAtC_iff buf (p :: ps) i).mp hv) 0 (by simp)
    simp only [Nat.add_zero, List.getD_cons_zero] at h0
    rw [Bool.and_true]
    exact beq_iff_eq.mpr h0.2

theorem growCountAuxF_zero (buf : List Nat) (p : Nat) (ps : List Nat) :
    ∀ (fuel i c : Nat), matchesFrom buf (p :: ps) i = 0 → c ≤ 1 →
    growCountAuxF buf p ps fuel i c = c := by
  intro fuel
  induction fuel with
  | zero => intro i c _ _; rfl
  | succ f ih =>
    intro i c hm hc
    simp only [growCountAuxF]
    by_cases hi : i < buf.length
    · rw [if_pos hi, if_neg (by omega)]
      have hv : validAtC buf (p :: ps) i = false := by
        by_contra hv
        rw [Bool.not_eq_false] at hv
        rw [matchesFrom_step buf (p :: ps) i hi, if_pos hv] at hm
        omega
      rw [guard_eq_validAtC, hv, if_neg (by simp)]
      refine ih (i + 1) c ?_ hc
      rw [matchesFrom_step buf (p :: ps) i hi, hv] at hm
      simpa using hm
    · rw [if_neg hi]

theorem growCountAuxF_one (buf : List Nat) (p : Nat) (ps : List Nat) :
    ∀ (fuel i : Nat), buf.length ≤ i + fuel → matchesFrom buf (p :: ps) i = 1 →
    growCountAuxF buf p ps fuel i 0 = 1 := by
  intro fuel
  induction fuel with
  | zero =>
    intro i hf hm
    rw [matchesFrom_ge buf (p :: ps) i (by omega)] at hm
    exact absurd hm (by omega)
  | succ f ih =>
    intro i hf hm
    have hi : i < buf.length := by
      by_contra hi
      rw [matchesFrom_ge buf (p :: ps) i (by omega)] at hm
      exact absurd hm (by omega)
    simp only [growCountAuxF]
    rw [if_pos hi, if_neg (by omega), guard_eq_validAtC]
    cases hv : validAtC buf (p :: ps) i with
    | true =>
      rw [if_pos rfl]
      have hm1 : matchesFrom buf (p :: ps) (i + 1) = 0 := by
        rw [matchesFrom_step buf (p :: ps) i hi, hv] at hm
        simpa using hm
      exact growCountAuxF_zero buf p ps f (i + (p :: ps).length) 1
        (matchesFrom_zero_mono buf (p :: ps) (i + 1) (i + (p :: ps).length)
          (by simp) hm1) (by omega)
    | false =>
      rw [if_neg (by simp)]
      refine ih (i + 1) (by omega) ?_
      rw [matchesFrom_step buf (p :: ps) i hi, hv] at hm
      simpa using hm

theorem growCount_unique (buf : List Nat) (p : Nat) (ps : List Nat)
    (h : matchCount buf (p :: ps) = 1) : growCount buf (p :: ps) = some 1 := by
  show some (growCountAuxF buf p ps (buf.length + 1) 0 0) = some 1
  rw [growCountAuxF_one buf p ps (buf.length + 1) 0 (by omega)
    (matchCount_eq_matchesFrom buf (p :: ps) ▸ h)]

theorem validAtC_unique_pos (buf : List Nat) (p : Nat) (ps : List Nat) (q0 : Nat)
    (hcount : matchCount buf (p :: ps) = 1) (hq0 : validAtC buf (p :: ps) q0 = true) :
    ∀ q, validAtC buf (p :: ps) q = true ↔ q = q0 := by
  have hbound : ∀ q, validAtC buf (p :: ps) q = true → q < buf.length := by
    intro q hq
    have := ((validAtC_iff buf (p :: ps) q).mp hq) 0 (by simp)
    omega
  unfold matchCount at hcount
  rw [List.countP_eq_length_filter] at hcount
  obtain ⟨a, ha⟩ := List.length_eq_one.mp hcount
  have hmem : ∀ q, validAtC buf (p :: ps) q = true → q = a := by
    intro q hq
    have : q ∈ List.filter (fun q => validAtC buf (p :: ps) q) (List.range buf.length) := by
      rw [List.mem_filter]
      exact ⟨List.mem_range.mpr (hbound q hq), hq⟩
    rw [ha] at this
    simpa using this
  intro q
  constructor
  · intro hq
    rw [hmem q hq, hmem q0 hq0]
  · intro hq
    exact hq ▸ hq0

theorem secs_chain_all : ∀ (l : List PatchSection) (a : PatchSection),
    List.Chain' (fun x y => x.«end» < y.start) (a :: l) →
    (∀ s ∈ l, s.start ≤ s.«end») → ∀ s ∈ l, a.«end» < s.start := by
  intro l
  induction l with
  | nil => intro a _ _ s hs; exact absurd hs (by simp)
  | cons b t ih =>
    intro a hch hse s hs
    rw [List.chain'_cons] at hch
    obtain ⟨hab, hbt⟩ := hch
    rcases List.mem_cons.mp hs with rfl | hs
    · exact hab
    · have h1 := ih b hbt (fun x hx => hse x (List.mem_cons_of_mem _ hx)) s hs
      have h2 := hse b (by simp)
      omega

theorem applyLoopF_correct (src tr : List Nat) (hlen : src.length = tr.length) :
    ∀ (fuel : Nat) (secs : List PatchSection) (i : Nat),
    src.length - i < fuel →
    (∀ s ∈ secs, i ≤ s.start ∧ s.start ≤ s.«end» ∧ s.«end» < src.length ∧
      s.search = listSlice src s.start s.«end» ∧ s.data = listSlice tr s.start s.«end» ∧
      (∀ q, validAtC src s.search q = true ↔ q = s.start)) →
    List.Chain' (fun x y => x.«end» < y.start) secs →
    (∀ p, i ≤ p → p < src.length →
      (∀ s ∈ secs, ¬(s.start ≤ p ∧ p ≤ s.«end»)) → src.getD p 0 = tr.getD p 0) →
    applyLoopF src fuel secs i = some (tr.drop i, true) := by
  intro fuel
  induction fuel with
  | zero => intro secs i hf _ _ _; exact absurd hf (by omega)
  | succ f ih =>
    intro secs i hf hsec hch hcov
    simp only [applyLoopF]
    by_cases hi : i < src.length
    · rw [if_pos hi]
      cases secs with
      | nil =>
        simp only []
        rw [drop_pointwise_eq src tr i hlen (fun p hp1 hp2 => hcov p hp1 hp2 (by simp))]
      | cons s rest =>
        simp only []
        obtain ⟨his, hse, hel, hsearch, hdata, huniq⟩ := hsec s (by simp)
        have hs_ne : s.search ≠ [] := by
          rw [hsearch]; exact listSlice_ne_nil src _ _ hse hel
        obtain ⟨p, ps, hps⟩ := List.exists_cons_of_ne_nil hs_ne
        have hplen : (p :: ps).length = s.«end» + 1 - s.start := by
          rw [← hps, hsearch, listSlice_length src _ _ hel]
        have hhead : src.getD s.start 0 = p := by
          have h0 : (listSlice src s.start s.«end»).getD 0 0 = src.getD (s.start + 0) 0 :=
            listSlice_getD src s.start s.«end» 0 (by omega) hel
          rw [← hsearch, hps] at h0
          simpa using h0.symm
        have hub : ∀ j < (p :: ps).length, i + j < src.length := by
          intro j hj
          rw [hplen] at hj
          omega
        have hrest_se : ∀ x ∈ rest, x.start ≤ x.«end» := by
          intro x hx
          exact (hsec x (List.mem_cons_of_mem _ hx)).2.1
        have hrest_gt : ∀ x ∈ rest, s.«end» < x.start :=
          secs_chain_all rest s hch hrest_se
        rw [hps]
        simp only []
        rw [validAtUB_eq src (p :: ps) i hub]
        by_cases hieq : i = s.start
        · have hbeq : (src.getD i 0 == p) = true := by
            rw [hieq, hhead]
            exact beq_self_eq_true p
          rw [if_pos hbeq]
          have hvc : validAtC src (p :: ps) i = true := by
            rw [← hps]
            exact (huniq i).mpr hieq
          rw [hvc]
          have hstep : i + (p :: ps).length = s.«end» + 1 := by
            rw [hplen]; omega
          have hrec : applyLoopF src f rest (i + (p :: ps).length) =
              some (tr.drop (i + (p :: ps).length), true) := by
            refine ih rest (i + (p :: ps).length) (by omega) ?_ (List.Chain'.tail hch) ?_
            · intro x hx
              obtain ⟨_, h2, h3, h4, h5, h6⟩ := hsec x (List.mem_cons_of_mem _ hx)
              exact ⟨by have := hrest_gt x hx; omega, h2, h3, h4, h5, h6⟩
            · intro q hq1 hq2 hq3
              refine hcov q (by omega) hq2 ?_
              intro x hx
              rcases List.mem_cons.mp hx with rfl | hx
              · intro ⟨_, hq5⟩
                omega
              · exact hq3 x hx
          rw [hrec]
          have hdropfull : tr.drop i = s.data ++ tr.drop (i + (p :: ps).length) := by
            rw [hstep, hieq, hdata]
            exact drop_eq_slice_append tr s.start s.«end» hse (by omega)
          rw [hdropfull]
        · have hlt : i < s.start := Nat.lt_of_le_of_ne his hieq
          have hcov_i : src.getD i 0 = tr.getD i 0 := by
            refine hcov i le_rfl hi ?_
            intro x hx
            rcases List.mem_cons.mp hx with rfl | hx
            · intro ⟨hq4, _⟩
              omega
            · intro ⟨hq4, _⟩
              have := hrest_gt x hx
              omega
          have hrec : applyLoopF src f (s :: rest) (i + 1) =
              some (tr.drop (i + 1), true) := by
            refine ih (s :: rest) (i + 1) (by omega) ?_ hch ?_
            · intro x hx
              rcases List.mem_cons.mp hx with rfl | hx
              · exact ⟨by omega, hse, hel, hsearch, hdata, huniq⟩
              · obtain ⟨_, h2, h3, h4, h5, h6⟩ := hsec x (List.mem_cons_of_mem _ hx)
                exact ⟨by have := hrest_gt x hx; omega, h2, h3, h4, h5, h6⟩
            · intro q hq1 hq2 hq3
              exact hcov q (by omega) hq2 hq3
          have hdropcons : tr.drop i = tr.getD i 0 :: tr.drop (i + 1) :=
            drop_eq_getD_cons tr i (by omega)
          by_cases hbeq : (src.getD i 0 == p) = true
          · rw [if_pos hbeq]
            have hvc : validAtC src (p :: ps) i = false := by
              rw [← hps]
              by_contra hcon
              rw [Bool.not_eq_false] at hcon
              exact hieq ((huniq i).mp hcon)
            rw [hvc, hrec, hdropcons, hcov_i]
          · rw [if_neg hbeq]
            rw [hrec, hdropcons, hcov_i]
    · rw [if_neg hi]
      have hsecs : secs = [] := by
        cases secs with
        | nil => rfl
        | cons s rest =>
          obtain ⟨his, hse, hel, _, _, _⟩ := hsec s (by simp)
          omega
      subst hsecs
      have : tr.drop i = [] := List.drop_eq_nil_of_le (by omega)
      rw [this]
      rfl

theorem modifyLast_append_singleton (g : PatchSection → PatchSection) :
    ∀ (l : List PatchSection) (x : PatchSection), modifyLast g (l ++ [x]) = l ++ [g x] := by
  intro l
  induction l with
  | nil => intro x; rfl
  | cons a rest ih =>
    intro x
    cases rest with
    | nil => rfl
    | cons b t =>
      show a :: modifyLast g ((b :: t) ++ [x]) = a :: ((b :: t) ++ [g x])
      rw [ih x]

theorem modifyLast_eq_dropLast (g : PatchSection → PatchSection) :
    ∀ (l : List PatchSection) (lst : PatchSection), l.getLast? = some lst →
    modifyLast g l = l.dropLast ++ [g lst] := by
  intro l lst hl
  rcases List.eq_nil_or_concat l with rfl | ⟨A, x, rfl⟩
  · simp at hl
  · rw [List.concat_eq_append] at hl ⊢
    rw [List.getLast?_concat] at hl
    obtain rfl : x = lst := Option.some.inj hl
    rw [modifyLast_append_singleton, List.dropLast_concat]

theorem concat_of_getLast? : ∀ (l : List PatchSection) (lst : PatchSection),
    l.getLast? = some lst → l = l.dropLast ++ [lst] := by
  intro l lst hl
  rcases List.eq_nil_or_concat l with rfl | ⟨A, x, rfl⟩
  · simp at hl
  · rw [List.concat_eq_append] at hl ⊢
    rw [List.getLast?_concat] at hl
    obtain rfl : x = lst := Option.some.inj hl
    rw [List.dropLast_concat]

theorem chain'_concat_of (R : PatchSection → PatchSection → Prop) (l : List PatchSection)
    (x : PatchSection) (hch : List.Chain' R l)
    (hlast : ∀ b, l.getLast? = some b → R b x) :
    List.Chain' R (l ++ [x]) := by
  rw [List.chain'_append]
  refine ⟨hch, List.chain'_singleton x, ?_⟩
  intro b hb y hy
  simp only [List.head?_cons, Option.mem_def, Option.some.injEq] at hy
  exact hy ▸ hlast b hb

theorem chain'_replace_last (R : PatchSection → PatchSection → Prop)
    (A : List PatchSection) (b b' : PatchSection)
    (hR : ∀ x, R x b → R x b')
    (hch : List.Chain' R (A ++ [b])) : List.Chain' R (A ++ [b']) := by
  rw [List.chain'_append] at hch ⊢
  obtain ⟨h1, _, h3⟩ := hch
  refine ⟨h1, List.chain'_singleton b', ?_⟩
  intro z hz y hy
  simp only [List.head?_cons, Option.mem_def, Option.some.injEq] at hy
  subst hy
  exact hR z (h3 z hz b (by simp))

theorem scanInv_init (src tr : List Nat) (f : Nat) : ScanInv src tr f 0 scanInit := by
  refine ⟨?_, ?_, ?_, ?_, ?_, ?_, ?_, ?_, ?_⟩ <;>
    simp [scanInit]

theorem scanInv_step (src tr : List Nat) (f : Nat) (i : Nat) (st : ScanState)
    (hlen : src.length = tr.length) (hi : i < src.length)
    (inv : ScanInv src tr f i st) :
    ScanInv src tr f (i + 1) (scanStep src tr f false st i) := by
  by_cases hxy : src.getD i 0 ≠ tr.getD i 0
  · -- eligible mismatch (only_char off: every byte is valid)
    rcases hf : st.fail_continue with _ | _
    · rcases hp : st.patching with _ | _
      · -- open a fresh section
        obtain ⟨hES0, hED0⟩ := inv.pendF hf
        have hstep : scanStep src tr f false st i =
            ⟨st.sections ++ [⟨st.sections.length + 1, i, i, [src.getD i 0], [tr.getD i 0]⟩],
              true, 0, false, st.extra_search, st.extra_data⟩ := by
          simp [scanStep, hp, hf, hxy, modifyLast_append_singleton]
          all_goals (intro h; exact absurd h (by simpa using hxy))
        rw [hstep]
        refine ⟨?_, ?_, ?_, ?_, ?_, ?_, ?_, ?_, ?_⟩
        · intro s hs
          rcases List.mem_append.mp hs with hs | hs
          · obtain ⟨h1, h2, h3, h4⟩ := inv.secOK s hs
            exact ⟨h1, by omega, h3, h4⟩
          · simp only [List.mem_singleton] at hs
            subst hs
            refine ⟨le_rfl, Nat.lt_succ_self i, ?_, ?_⟩
            · show [src.getD i 0] = listSlice src i i
              rw [listSlice_singleton src i hi]
            · show [tr.getD i 0] = listSlice tr i i
              rw [listSlice_singleton tr i (by omega)]
        · refine chain'_concat_of _ _ _ inv.chain ?_
          intro b hb
          have := inv.idleGap hp hf b hb
          show b.«end» + 1 < i
          omega
        · intro p hplt hnos
          by_cases hpi : p < i
          · refine inv.cover p hpi ?_
            intro s hs
            exact hnos s (List.mem_append_left _ hs)
          · exfalso
            refine hnos ⟨st.sections.length + 1, i, i, [src.getD i 0], [tr.getD i 0]⟩
              (List.mem_append_right _ (by simp)) ?_
            show i ≤ p ∧ p ≤ i
            omega
        · intro h; exact absurd h (by simp)
        · intro _; exact ⟨hES0, hED0⟩
        · intro _
          exact ⟨⟨st.sections.length + 1, i, i, [src.getD i 0], [tr.getD i 0]⟩,
            by rw [List.getLast?_concat], rfl⟩
        · intro h; exact absurd h (by simp)
        · simp
        · intro h; exact absurd h (by simp)
      · -- extend the open section directly
        obtain ⟨lst, hlst, hlend⟩ := inv.patchT hp
        obtain ⟨hES0, hED0⟩ := inv.pendF hf
        obtain ⟨hl1, hl2, hl3, hl4⟩ := inv.secOK lst (by
          rw [concat_of_getLast? _ _ hlst]
          exact List.mem_append_right _ (by simp))
        have hstep : scanStep src tr f false st i =
            ⟨st.sections.dropLast ++
              [{ lst with search := lst.search ++ [src.getD i 0],
                          data := lst.data ++ [tr.getD i 0], «end» := i }],
              true, st.fail_count, false, st.extra_search, st.extra_data⟩ := by
          simp [scanStep, hp, hf, hxy, modifyLast_eq_dropLast _ _ _ hlst]
          all_goals (intro h; exact absurd h (by simpa using hxy))
        rw [hstep]
        have hmemdrop : ∀ s ∈ st.sections.dropLast, s ∈ st.sections := by
          intro s hs
          rw [concat_of_getLast? _ _ hlst]
          exact List.mem_append_left _ hs
        refine ⟨?_, ?_, ?_, ?_, ?_, ?_, ?_, ?_, ?_⟩
        · intro s hs
          rcases List.mem_append.mp hs with hs | hs
          · obtain ⟨h1, h2, h3, h4⟩ := inv.secOK s (hmemdrop s hs)
            exact ⟨h1, by omega, h3, h4⟩
          · simp only [List.mem_singleton] at hs
            subst hs
            refine ⟨by show lst.start ≤ i; omega, by show i < i + 1; omega, ?_, ?_⟩
            · show lst.search ++ [src.getD i 0] = listSlice src lst.start i
              rw [hl3, ← listSlice_append_slice src lst.start lst.«end» i (by omega)
                (by omega), hlend, listSlice_singleton src i hi]
            · show lst.data ++ [tr.getD i 0] = listSlice tr lst.start i
              rw [hl4, ← listSlice_append_slice tr lst.start lst.«end» i (by omega)
                (by omega), hlend, listSlice_singleton tr i (by omega)]
        · have hch2 := inv.chain
          rw [concat_of_getLast? _ _ hlst] at hch2
          exact chain'_replace_last _ _ lst _ (fun z hz => hz) hch2
        · intro p hplt hnos
          by_cases hpi : p < i
          · refine inv.cover p hpi ?_
            intro s hs
            rw [concat_of_getLast? _ _ hlst] at hs
            rcases List.mem_append.mp hs with hs | hs
            · exact hnos s (List.mem_append_left _ hs)
            · simp only [List.mem_singleton] at hs
              subst hs
              have := hnos { s with search := s.search ++ [src.getD i 0],
                                    data := s.data ++ [tr.getD i 0], «end» := i }
                (List.mem_append_right _ (by simp))
              intro ⟨ha, hb⟩
              exact this ⟨ha, by show p ≤ i; omega⟩
          · exfalso
            refine hnos { lst with search := lst.search ++ [src.getD i 0],
                                   data := lst.data ++ [tr.getD i 0], «end» := i }
              (List.mem_append_right _ (by simp)) ?_
            show lst.start ≤ p ∧ p ≤ i
            omega
        · intro h; exact absurd h (by simp)
        · intro _; exact ⟨hES0, hED0⟩
        · intro _
          refine ⟨{ lst with search := lst.search ++ [src.getD i 0],
                             data := lst.data ++ [tr.getD i 0], «end» := i },
            by rw [List.getLast?_concat], rfl⟩
        · intro h; exact absurd h (by simp)
        · simp
        · intro h; exact absurd h (by simp)
    · -- splice the pending gap, then extend
      obtain ⟨lst, hlst, hLpos, hLsum, hES, hED⟩ := inv.pend hf
      obtain ⟨hl1, hl2, hl3, hl4⟩ := inv.secOK lst (by
        rw [concat_of_getLast? _ _ hlst]
        exact List.mem_append_right _ (by simp))
      have hstep : scanStep src tr f false st i =
          ⟨st.sections.dropLast ++
            [{ lst with search := lst.search ++ st.extra_search ++ [src.getD i 0],
                        data := lst.data ++ st.extra_data ++ [tr.getD i 0], «end» := i }],
            true, st.fail_count, false, [], []⟩ := by
        simp [scanStep, hf, hxy, modifyLast_eq_dropLast _ _ _ hlst,
          modifyLast_append_singleton]
        all_goals (intro h; exact absurd h (by simpa using hxy))
      rw [hstep]
      have hmemdrop : ∀ s ∈ st.sections.dropLast, s ∈ st.sections := by
        intro s hs
        rw [concat_of_getLast? _ _ hlst]
        exact List.mem_append_left _ hs
      have hsearch' : lst.search ++ st.extra_search ++ [src.getD i 0] =
          listSlice src lst.start i := by
        have hstep2 := listSlice_append_slice src lst.start (i - 1) i (by omega) (by omega)
        rw [show i - 1 + 1 = i by omega, listSlice_singleton src i hi] at hstep2
        rw [hl3, hES, listSlice_append_slice src lst.start lst.«end» (i - 1) (by omega)
          (by omega)]
        exact hstep2
      have hdata' : lst.data ++ st.extra_data ++ [tr.getD i 0] =
          listSlice tr lst.start i := by
        have hstep2 := listSlice_append_slice tr lst.start (i - 1) i (by omega) (by omega)
        rw [show i - 1 + 1 = i by omega, listSlice_singleton tr i (by omega)] at hstep2
        rw [hl4, hED, listSlice_append_slice tr lst.start lst.«end» (i - 1) (by omega)
          (by omega)]
        exact hstep2
      refine ⟨?_, ?_, ?_, ?_, ?_, ?_, ?_, ?_, ?_⟩
      · intro s hs
        rcases List.mem_append.mp hs with hs | hs
        · obtain ⟨h1, h2, h3, h4⟩ := inv.secOK s (hmemdrop s hs)
          exact ⟨h1, by omega, h3, h4⟩
        · simp only [List.mem_singleton] at hs
          subst hs
          exact ⟨by show lst.start ≤ i; omega, by show i < i + 1; omega, hsearch', hdata'⟩
      · have hch2 := inv.chain
        rw [concat_of_getLast? _ _ hlst] at hch2
        exact chain'_replace_last _ _ lst _ (fun z hz => hz) hch2
      · intro p hplt hnos
        by_cases hpi : p < i
        · refine inv.cover p hpi ?_
          intro s hs
          rw [concat_of_getLast? _ _ hlst] at hs
          rcases List.mem_append.mp hs with hs | hs
          · exact hnos s (List.mem_append_left _ hs)
          · simp only [List.mem_singleton] at hs
            subst hs
            have := hnos { s with search := s.search ++ st.extra_search ++ [src.getD i 0],
                                  data := s.data ++ st.extra_data ++ [tr.getD i 0],
                                  «end» := i } (List.mem_append_right _ (by simp))
            intro ⟨ha, hb⟩
            exact this ⟨ha, by show p ≤ i; omega⟩
        · exfalso
          refine hnos { lst with search := lst.search ++ st.extra_search ++ [src.getD i 0],
                                 data := lst.data ++ st.extra_data ++ [tr.getD i 0],
                                 «end» := i } (List.mem_append_right _ (by simp)) ?_
          show lst.start ≤ p ∧ p ≤ i
          omega
      · intro h; exact absurd h (by simp)
      · intro _; exact ⟨rfl, rfl⟩
      · intro _
        refine ⟨{ lst with search := lst.search ++ st.extra_search ++ [src.getD i 0],
                           data := lst.data ++ st.extra_data ++ [tr.getD i 0], «end» := i },
          by rw [List.getLast?_concat], rfl⟩
      · intro h; exact absurd h (by simp)
      · simp
      · intro h; exact absurd h (by simp)
  · -- matching byte (no eligible mismatch)
    have heq : src.getD i 0 = tr.getD i 0 := not_ne_iff.mp hxy
    by_cases hcond : st.fail_count < f ∧ 0 < st.sections.length
    · -- buffer the byte pair into the pending gap
      have hnotmis : ¬(src.getD i 0 ≠ tr.getD i 0 ∧
          ((decide (0x30 ≤ src.getD i 0) && decide (src.getD i 0 ≤ 0x71)) || !false)
            = true) := fun h => h.1 heq
      have hstep : scanStep src tr f false st i =
          ⟨st.sections, false, st.fail_count + 1, true,
            st.extra_search ++ [src.getD i 0], st.extra_data ++ [tr.getD i 0]⟩ := by
        simp only [scanStep]
        rw [if_neg hnotmis, if_pos ⟨hcond.1, hcond.2, by simp⟩]
      rw [hstep]
      refine ⟨?_, ?_, ?_, ?_, ?_, ?_, ?_, ?_, ?_⟩
      · intro s hs
        obtain ⟨h1, h2, h3, h4⟩ := inv.secOK s hs
        exact ⟨h1, by omega, h3, h4⟩
      · exact inv.chain
      · intro p hplt hnos
        by_cases hpi : p < i
        · exact inv.cover p hpi hnos
        · have : p = i := by omega
          rw [this]
          exact heq
      · intro _
        rcases hfc : st.fail_continue with _ | _
        · rcases hp2 : st.patching with _ | _
          · exfalso
            have hne : st.sections ≠ [] := by
              intro h
              rw [h] at hcond
              simp at hcond
            have := inv.failMono hp2 hfc hne
            omega
          · obtain ⟨lst, hlst, hlend⟩ := inv.patchT hp2
            obtain ⟨hES0, hED0⟩ := inv.pendF hfc
            refine ⟨lst, hlst, ?_, ?_, ?_, ?_⟩
            · rw [hES0]; simp
            · rw [hES0]; simp; omega
            · rw [hES0]
              show [src.getD i 0] = listSlice src (lst.«end» + 1) (i + 1 - 1)
              rw [hlend, show i + 1 - 1 = i by omega, listSlice_singleton src i hi]
            · rw [hED0]
              show [tr.getD i 0] = listSlice tr (lst.«end» + 1) (i + 1 - 1)
              rw [hlend, show i + 1 - 1 = i by omega, listSlice_singleton tr i (by omega)]
        · obtain ⟨lst, hlst, hLpos, hLsum, hES, hED⟩ := inv.pend hfc
          refine ⟨lst, hlst, ?_, ?_, ?_, ?_⟩
          · simp
          · simp only [List.length_append, List.length_singleton]
            omega
          · rw [hES, show i + 1 - 1 = i by omega,
              ← listSlice_append_slice src (lst.«end» + 1) (i - 1) i (by omega) (by omega),
              show i - 1 + 1 = i by omega, listSlice_singleton src i hi]
          · rw [hED, show i + 1 - 1 = i by omega,
              ← listSlice_append_slice tr (lst.«end» + 1) (i - 1) i (by omega) (by omega),
              show i - 1 + 1 = i by omega, listSlice_singleton tr i (by omega)]
      · intro h; exact absurd h (by simp)
      · intro h; exact absurd h (by simp)
      · intro _ h; exact absurd h (by simp)
      · simp
      · intro _ h; exact absurd h (by simp)
    · -- close the section and clear the pending gap
      have hcond' : ¬(st.fail_count < f ∧ 0 < st.sections.length ∧
          ((decide (0x30 ≤ src.getD i 0) && decide (src.getD i 0 ≤ 0x71)) || !false)
            = true) := by
        intro ⟨a, b, _⟩
        exact hcond ⟨a, b⟩
      have hnotmis : ¬(src.getD i 0 ≠ tr.getD i 0 ∧
          ((decide (0x30 ≤ src.getD i 0) && decide (src.getD i 0 ≤ 0x71)) || !false)
            = true) := fun h => h.1 heq
      have hstep : scanStep src tr f false st i =
          ⟨st.sections, false, st.fail_count + 1, false, [], []⟩ := by
        simp only [scanStep]
        rw [if_neg hnotmis, if_neg hcond']
      rw [hstep]
      refine ⟨?_, ?_, ?_, ?_, ?_, ?_, ?_, ?_, ?_⟩
      · intro s hs
        obtain ⟨h1, h2, h3, h4⟩ := inv.secOK s hs
        exact ⟨h1, by omega, h3, h4⟩
      · exact inv.chain
      · intro p hplt hnos
        by_cases hpi : p < i
        · exact inv.cover p hpi hnos
        · have : p = i := by omega
          rw [this]
          exact heq
      · intro h; exact absurd h (by simp)
      · intro _; exact ⟨rfl, rfl⟩
      · intro h; exact absurd h (by simp)
      · intro _ _ lst hlst
        have hmem : lst ∈ st.sections := by
          rw [concat_of_getLast? _ _ hlst]
          exact List.mem_append_right _ (by simp)
        have := (inv.secOK lst hmem).2.1
        omega
      · simp
      · intro _ _ hne
        have hlenpos : 0 < st.sections.length := List.length_pos.mpr hne
        have : ¬st.fail_count < f := fun ha => hcond ⟨ha, hlenpos⟩
        show f ≤ st.fail_count + 1
        omega

theorem scanInv_holds (src tr : List Nat) (f : Nat) (hlen : src.length = tr.length) :
    ∀ n, n ≤ src.length → ScanInv src tr f n (scanN src tr f false n) := by
  intro n
  induction n with
  | zero => intro _; exact scanInv_init src tr f
  | succ m ih =>
    intro hm
    rw [scanN_succ]
    exact scanInv_step src tr f m _ hlen (by omega) (ih (by omega))

theorem growLoopF_count1 (orig ns : PatchSection) (input patched tf : List Nat) (ts : Bool)
    (mg fuel strat : Nat) (pp : Bool) (hc : growCount tf ns.search = some 1) :
    growLoopF orig input patched tf ts mg (fuel + 1) ns 0 strat pp = some orig := by
  simp only [growLoopF]
  rw [if_neg (by omega), hc]
  simp

theorem growSection_noop (s : PatchSection) (input patched : List Nat) (mg : Nat)
    (hc : growCount input s.search = some 1) :
    growSection s input patched none mg = some s :=
  growLoopF_count1 s s input patched input false mg (3 * mg + 8) 0 false hc

theorem mapOpt_id (g : PatchSection → Option PatchSection) :
    ∀ (l : List PatchSection), (∀ s ∈ l, g s = some s) → mapOpt g l = some l := by
  intro l
  induction l with
  | nil => intro _; rfl
  | cons a rest ih =>
    intro h
    simp only [mapOpt]
    rw [h a (by simp), ih (fun x hx => h x (by simp [hx]))]

theorem sectionMerge_nontouch (patch : Patch) (hne : patch.sections ≠ [])
    (hch : List.Chain' (fun a b => a.«end» < b.start) patch.sections) :
    sectionMerge patch = some patch := by
  unfold sectionMerge
  by_cases h1 : patch.sections.length = 1
  · rw [if_pos h1]
  · rw [if_neg h1]
    cases hl : patch.sections.length with
    | zero => exact absurd (List.length_eq_zero.mp hl) hne
    | succ n =>
      simp only
      rw [mergeLoopF_id (n + 1 + 1) patch.sections 0 (by omega) hch]
      rfl

theorem applyPatch_of_applyLoopF (input : List Nat) (secs : List PatchSection)
    (r : List Nat) (b : Bool)
    (h : applyLoopF input (input.length + 1) secs 0 = some (r, b)) :
    applyPatch false input secs = ApplyOutcome.ok r b := by
  unfold applyPatch
  rw [if_neg Bool.false_ne_true]
  simp only []
  rw [if_neg (by omega : ¬0 > secs.length), h]

/-- C1: round trip.  For equal-length buffers whose generated sections all
have search patterns occurring uniquely in the source (formalised on the
Differ output; under that hypothesis the Disambiguator and Merger provably
leave every section unchanged, so the same holds for all pipeline stages),
building the patch succeeds (no stage panics) and applying it to the source
with the Applier's primary pass reproduces the transformed buffer exactly,
with every section consumed. -/
theorem c1_round_trip (src tr : List Nat) (follow maxGrow : Nat)
    (hlen : src.length = tr.length)
    (huniq : ∀ s ∈ (buildPatchScan src tr follow false).sections,
      matchCount src s.search = 1) :
    ∃ p, buildPatchCore src tr follow false none maxGrow = some p ∧
      applyPatch false src p.sections = ApplyOutcome.ok tr true := by
  have hinv := scanInv_holds src tr follow hlen src.length le_rfl
  have hscan_eq : (buildPatchScan src tr follow false).sections =
      (scanN src tr follow false src.length).sections := rfl
  set secs := (scanN src tr follow false src.length).sections with hsecs
  have hsec_props := hinv.secOK
  have hne_search : ∀ s ∈ secs, s.search ≠ [] := by
    intro s hs
    obtain ⟨h1, h2, h3, _⟩ := hsec_props s hs
    rw [h3]
    exact listSlice_ne_nil src _ _ h1 h2
  have huniq2 : ∀ s ∈ secs, ∀ q, validAtC src s.search q = true ↔ q = s.start := by
    intro s hs
    obtain ⟨h1, h2, h3, _⟩ := hsec_props s hs
    obtain ⟨p, ps, hps⟩ := List.exists_cons_of_ne_nil (hne_search s hs)
    have hcnt : matchCount src (p :: ps) = 1 := by
      rw [← hps]
      exact huniq s hs
    have hstart : validAtC src (p :: ps) s.start = true := by
      rw [← hps, h3]
      exact validAtC_slice src _ _ h1 h2
    intro q
    rw [hps]
    exact validAtC_unique_pos src p ps s.start hcnt hstart q
  have happly : applyLoopF src (src.length + 1) secs 0 = some (tr, true) := by
    have h0 := applyLoopF_correct src tr hlen (src.length + 1) secs 0 (by omega)
      (by
        intro s hs
        obtain ⟨h1, h2, h3, h4⟩ := hsec_props s hs
        exact ⟨Nat.zero_le _, h1, h2, h3, h4, huniq2 s hs⟩)
      (List.Chain'.imp (fun a b hab => by omega) hinv.chain)
      (fun p hp1 hp2 hp3 => hinv.cover p hp2 hp3)
    rw [List.drop_zero] at h0
    exact h0
  by_cases hempty : secs.isEmpty
  · refine ⟨buildPatchScan src tr follow false, ?_, ?_⟩
    · simp only [buildPatchCore]
      rw [hscan_eq, if_pos hempty]
    · show applyPatch false src secs = ApplyOutcome.ok tr true
      exact applyPatch_of_applyLoopF src secs tr true happly
  · have hne : secs ≠ [] := by
      intro h
      rw [h] at hempty
      exact hempty rfl
    have hgrow : ∀ s ∈ secs, growSection s src tr none maxGrow = some s := by
      intro s hs
      refine growSection_noop s src tr maxGrow ?_
      obtain ⟨p, ps, hps⟩ := List.exists_cons_of_ne_nil (hne_search s hs)
      rw [hps]
      refine growCount_unique src p ps ?_
      rw [← hps]
      exact huniq s hs
    have hmap : mapOpt (fun s => growSection s src tr none maxGrow) secs = some secs :=
      mapOpt_id _ secs hgrow
    have hfilter : secs.filter (fun s => !s.search.isEmpty) = secs := by
      refine List.filter_eq_self.mpr ?_
      intro a ha
      have := hne_search a ha
      simp only [Bool.not_eq_true', List.isEmpty_eq_false]
      exact this
    have hmerge : sectionMerge { sections := secs } = some { sections := secs } := by
      refine sectionMerge_nontouch _ hne ?_
      exact List.Chain'.imp (fun a b hab => by omega) hinv.chain
    refine ⟨{ sections := secs }, ?_, ?_⟩
    · simp only [buildPatchCore]
      rw [hscan_eq, if_neg hempty, hmap]
      simp only []
      rw [hfilter]
      exact hmerge
    · show applyPatch false src secs = ApplyOutcome.ok tr true
      exact applyPatch_of_applyLoopF src secs tr true happly

/-- C1 (witness): source `[1,2,3]`, transformed `[1,9,3]` generate one
section with the unique pattern `[2]`; the pipeline produces it and applying
the patch to the source yields the transformed buffer. -/
theorem c1_round_trip_witness :
    ∃ p, buildPatchCore [1, 2, 3] [1, 9, 3] 6 false none 10 = some p ∧
      applyPatch false [1, 2, 3] p.sections = ApplyOutcome.ok [1, 9, 3] true :=
  c1_round_trip [1, 2, 3] [1, 9, 3] 6 10 (by decide) (by decide)

end BinPatcher
